import Mathlib

/-!
# Verification of `reqwest-pretty-json`

Shallow embedding of the crate `reqwest-pretty-json` (file `src/lib.rs`) together
with the parts of its two collaborators that its observable behaviour depends on:

* `serde_json`: `to_vec` (compact printing), `to_vec_pretty` (2-space indented
  printing) and `from_slice` (parsing), modelled on a JSON value type `Json`.
  Numbers are modelled as unbounded integers (the integer fragment of
  `serde_json::Value`); bodies are modelled as `List Char` standing for the
  UTF-8 byte sequence.
* `reqwest` 0.11: `RequestBuilder::json` (which serializes compactly, sets the
  `Content-Type: application/json` header when none is present, and on a
  serialization error stores the error in the builder) and
  `RequestBuilder::body`, for both the asynchronous and the blocking builder.

The crate itself contributes the single function `pretty_json`, embedded below
verbatim from the source: `self.json(json)` followed by `to_vec_pretty(json)`,
replacing the body on success and returning the builder unchanged on failure.
-/

/-- JSON values, as produced by running a `serde::Serialize` implementation
through `serde_json` (integer fragment: numbers are unbounded integers). -/
inductive Json where
  | null : Json
  | bool (b : Bool) : Json
  | num (n : Int) : Json
  | str (s : String) : Json
  | arr (xs : List Json) : Json
  | obj (kvs : List (String × Json)) : Json

/-- Decimal digit character for a digit value below ten. -/
def digitChar (d : Nat) : Char := Char.ofNat (48 + d)

/-- Lowercase hexadecimal digit character, as `serde_json` emits in `\u` escapes. -/
def hexDigChar (d : Nat) : Char := if d < 10 then digitChar d else Char.ofNat (87 + d)

/-- Accumulator-style decimal rendering of a positive natural number. -/
def natCharsAux : Nat → List Char → List Char
  | 0, acc => acc
  | n+1, acc => natCharsAux ((n+1) / 10) (digitChar ((n+1) % 10) :: acc)
decreasing_by exact Nat.div_lt_self (Nat.succ_pos n) (by decide)

/-- Decimal rendering of a natural number, most significant digit first. -/
def natChars (n : Nat) : List Char := if n = 0 then ['0'] else natCharsAux n []

/-- Decimal rendering of an integer, as `itoa` does for `serde_json`. -/
def intChars (i : Int) : List Char :=
  if i < 0 then '-' :: natChars i.natAbs else natChars i.natAbs

/-- `serde_json`'s escaping of one character inside a JSON string: quote and
backslash get two-character escapes, the five named control characters get
their short escapes, the remaining control characters get `\u00XX`, and every
other character is emitted verbatim. -/
def escapeChar (c : Char) : List Char :=
  if c = '"' then ['\\', '"']
  else if c = '\\' then ['\\', '\\']
  else if c = '\x08' then ['\\', 'b']
  else if c = '\t' then ['\\', 't']
  else if c = '\n' then ['\\', 'n']
  else if c = '\x0C' then ['\\', 'f']
  else if c = '\r' then ['\\', 'r']
  else if c.toNat < 32 then
    ['\\', 'u', '0', '0', hexDigChar (c.toNat / 16), hexDigChar (c.toNat % 16)]
  else [c]

/-- Escape every character of a string body. -/
def escapeStr : List Char → List Char
  | [] => []
  | c :: cs => escapeChar c ++ escapeStr cs

/-- A JSON string literal: quote, escaped contents, quote. -/
def renderString (s : String) : List Char := '"' :: (escapeStr s.data ++ ['"'])

/-- The characters of the literal word `null`. -/
def nullChars : List Char := ['n', 'u', 'l', 'l']

/-- The characters of the literal word `true`. -/
def trueChars : List Char := ['t', 'r', 'u', 'e']

/-- The characters of the literal word `false`. -/
def falseChars : List Char := ['f', 'a', 'l', 's', 'e']

/-- Two spaces of indentation per nesting level (`serde_json`'s `PrettyFormatter`). -/
def indentC (d : Nat) : List Char := List.replicate (2 * d) ' '

mutual

/-- Model of `serde_json`'s pretty printer (`PrettyFormatter` with the default
two-space indent) at nesting depth `d`. -/
def prettyVal : Json → Nat → List Char
  | .null, _ => nullChars
  | .bool true, _ => trueChars
  | .bool false, _ => falseChars
  | .num i, _ => intChars i
  | .str s, _ => renderString s
  | .arr [], _ => ['[', ']']
  | .arr (x :: xs), d =>
      '[' :: '\n' :: (indentC (d+1) ++ prettyVal x (d+1) ++ itemsTail xs (d+1)
        ++ '\n' :: (indentC d ++ [']']))
  | .obj [], _ => ['{', '}']
  | .obj (kv :: kvs), d =>
      '{' :: '\n' :: (indentC (d+1) ++ renderString kv.1
        ++ ':' :: ' ' :: (prettyVal kv.2 (d+1) ++ membersTail kvs (d+1)
        ++ '\n' :: (indentC d ++ ['}'])))

/-- Second and later array elements of the pretty printer: each is preceded by
a comma, a line break and the indentation of its level. -/
def itemsTail : List Json → Nat → List Char
  | [], _ => []
  | y :: ys, d => ',' :: '\n' :: (indentC d ++ prettyVal y d ++ itemsTail ys d)

/-- Second and later object members of the pretty printer. -/
def membersTail : List (String × Json) → Nat → List Char
  | [], _ => []
  | m :: ms, d =>
      ',' :: '\n' :: (indentC d ++ renderString m.1
        ++ ':' :: ' ' :: (prettyVal m.2 d ++ membersTail ms d))

end

mutual

/-- Model of `serde_json`'s compact printer (`CompactFormatter`), the encoding
`reqwest`'s `json` method uses. -/
def compactVal : Json → List Char
  | .null => nullChars
  | .bool true => trueChars
  | .bool false => falseChars
  | .num i => intChars i
  | .str s => renderString s
  | .arr [] => ['[', ']']
  | .arr (x :: xs) => '[' :: (compactVal x ++ compactItemsTail xs ++ [']'])
  | .obj [] => ['{', '}']
  | .obj (kv :: kvs) =>
      '{' :: (renderString kv.1 ++ ':' :: (compactVal kv.2
        ++ compactMembersTail kvs ++ ['}']))

/-- Second and later array elements of the compact printer. -/
def compactItemsTail : List Json → List Char
  | [] => []
  | y :: ys => ',' :: (compactVal y ++ compactItemsTail ys)

/-- Second and later object members of the compact printer. -/
def compactMembersTail : List (String × Json) → List Char
  | [] => []
  | m :: ms => ',' :: (renderString m.1 ++ ':' :: (compactVal m.2 ++ compactMembersTail ms))

end

/-- A caller-supplied value with the `serde::Serialize` capability.  Running its
`Serialize` implementation either yields a JSON value or fails with an error
message; `serde_json` drives the same implementation for both the compact and
the pretty serializer, so one outcome is shared by both. -/
structure Payload where
  serialize : Except String Json

/-- Model of `serde_json::to_vec`: compact encoding of the payload. -/
def to_vec (p : Payload) : Except String (List Char) :=
  p.serialize.map compactVal

/-- Model of `serde_json::to_vec_pretty`: two-space-indented encoding of the payload. -/
def to_vec_pretty (p : Payload) : Except String (List Char) :=
  p.serialize.map (fun j => prettyVal j 0)

/-- The HTTP request being assembled: method, URL, headers in insertion order,
and an optional body. -/
structure Request where
  method : String
  url : String
  headers : List (String × String)
  body : Option (List Char)

/-- The `Content-Type` header name. -/
def CONTENT_TYPE : String := "content-type"

/-- Whether a header by the given name is present. -/
def Request.hasHeader (req : Request) (name : String) : Bool :=
  req.headers.any (fun kv => kv.1 == name)

/-- Model of `reqwest::RequestBuilder` (asynchronous): the builder holds either
the request assembled so far or the first error encountered. -/
structure RequestBuilder where
  request : Except String Request

/-- Model of `reqwest::RequestBuilder::json` (reqwest 0.11): if the builder
holds a request, serialize the payload compactly; on success insert the
`Content-Type: application/json` header unless a `Content-Type` header is
already present and set the body to the compact bytes; on a serialization
error store the error in the builder. -/
def RequestBuilder.json (b : RequestBuilder) (p : Payload) : RequestBuilder :=
  match b.request with
  | .error e => ⟨.error e⟩
  | .ok req =>
    match to_vec p with
    | .ok bytes =>
      let req' := if req.hasHeader CONTENT_TYPE then req
                  else { req with headers := req.headers ++ [(CONTENT_TYPE, "application/json")] }
      ⟨.ok { req' with body := some bytes }⟩
    | .error e => ⟨.error e⟩

/-- Model of `reqwest::RequestBuilder::body`: overwrite the body if the builder
holds a request, keep the error otherwise. -/
def RequestBuilder.body (b : RequestBuilder) (bytes : List Char) : RequestBuilder :=
  match b.request with
  | .error e => ⟨.error e⟩
  | .ok req => ⟨.ok { req with body := some bytes }⟩

/-- The crate's `pretty_json` for `reqwest::RequestBuilder` (src/lib.rs lines
84-90): delegate to `json`, then attempt `to_vec_pretty`; on success replace
the body with the pretty bytes, on failure return the builder from `json`
unchanged. -/
def RequestBuilder.pretty_json (self : RequestBuilder) (json : Payload) : RequestBuilder :=
  let builder := self.json json
  match to_vec_pretty json with
  | .ok bytes => builder.body bytes
  | .error _ => builder

/-- Model of `reqwest::blocking::RequestBuilder`: a distinct builder type whose
`json` and `body` behave as the asynchronous ones do. -/
structure BlockingRequestBuilder where
  request : Except String Request

/-- Model of `reqwest::blocking::RequestBuilder::json` (reqwest 0.11). -/
def BlockingRequestBuilder.json (b : BlockingRequestBuilder) (p : Payload) : BlockingRequestBuilder :=
  match b.request with
  | .error e => ⟨.error e⟩
  | .ok req =>
    match to_vec p with
    | .ok bytes =>
      let req' := if req.hasHeader CONTENT_TYPE then req
                  else { req with headers := req.headers ++ [(CONTENT_TYPE, "application/json")] }
      ⟨.ok { req' with body := some bytes }⟩
    | .error e => ⟨.error e⟩

/-- Model of `reqwest::blocking::RequestBuilder::body`. -/
def BlockingRequestBuilder.body (b : BlockingRequestBuilder) (bytes : List Char) : BlockingRequestBuilder :=
  match b.request with
  | .error e => ⟨.error e⟩
  | .ok req => ⟨.ok { req with body := some bytes }⟩

/-- The crate's `pretty_json` for `reqwest::blocking::RequestBuilder` (src/lib.rs
lines 97-103): textually the same algorithm as the asynchronous one. -/
def BlockingRequestBuilder.pretty_json (self : BlockingRequestBuilder) (json : Payload) : BlockingRequestBuilder :=
  let builder := self.json json
  match to_vec_pretty json with
  | .ok bytes => builder.body bytes
  | .error _ => builder

/-- The body visible on a builder: the request body if the builder holds a
request, nothing if it holds an error. -/
def RequestBuilder.bodyOf (b : RequestBuilder) : Option (List Char) :=
  match b.request with
  | .ok req => req.body
  | .error _ => none

/-- The headers visible on a builder. -/
def RequestBuilder.headersOf (b : RequestBuilder) : Option (List (String × String)) :=
  match b.request with
  | .ok req => some req.headers
  | .error _ => none

/-- The payload of the crate's own tests: the mapping from "foo" to [1, 2, 3]. -/
def jsonFoo : Json := .obj [("foo", .arr [.num 1, .num 2, .num 3])]

/-- A payload whose `Serialize` implementation succeeds with `jsonFoo`. -/
def payloadFoo : Payload := ⟨.ok jsonFoo⟩

/-- A payload whose `Serialize` implementation fails, as a map with non-string
keys does under `serde_json`. -/
def payloadBad : Payload := ⟨.error "key must be a string"⟩

/-- A freshly created builder's request: no headers, no body yet. -/
def reqNew : Request :=
  { method := "POST", url := "http://httpbin.org/post", headers := [], body := none }

/-- C1: for every payload whose pretty serialization succeeds, `pretty_json`
returns the builder with its body equal to the pretty-printed JSON
serialization of the payload, overriding the compact body that the delegated
default `json` call had provisionally set. -/
theorem pretty_json_success_body (b : RequestBuilder) (p : Payload) (j : Json) (req : Request)
    (hp : p.serialize = .ok j) (hb : b.request = .ok req) :
    ∃ reqC req', (b.json p).request = .ok reqC ∧ reqC.body = some (compactVal j) ∧
      (b.pretty_json p).request = .ok req' ∧ req'.body = some (prettyVal j 0) := by
  by_cases hh : req.hasHeader CONTENT_TYPE <;>
    simp [RequestBuilder.pretty_json, RequestBuilder.json, RequestBuilder.body,
      to_vec, to_vec_pretty, hp, hb, Except.map, hh]

/-- Witness for C1 at the crate's own test payload on a fresh builder. -/
theorem pretty_json_success_body_witness :
    payloadFoo.serialize = .ok jsonFoo ∧
    (∃ reqC req',
      ((RequestBuilder.mk (.ok reqNew)).json payloadFoo).request = .ok reqC ∧
      reqC.body = some (compactVal jsonFoo) ∧
      ((RequestBuilder.mk (.ok reqNew)).pretty_json payloadFoo).request = .ok req' ∧
      req'.body = some (prettyVal jsonFoo 0)) :=
  ⟨rfl, pretty_json_success_body _ payloadFoo jsonFoo reqNew rfl rfl⟩

/-- C2: for every payload whose serialization fails, `pretty_json` returns
exactly the builder the default compact-attachment call alone produces, and
the operation itself raises no error: the failure is silently swallowed. -/
theorem pretty_json_failure_fallback (b : RequestBuilder) (p : Payload) (e : String)
    (hp : p.serialize = .error e) :
    b.pretty_json p = b.json p := by
  simp [RequestBuilder.pretty_json, to_vec_pretty, hp, Except.map]

/-- Witness for C2 at a payload with a failing `Serialize` implementation. -/
theorem pretty_json_failure_fallback_witness :
    (RequestBuilder.mk (.ok reqNew)).pretty_json payloadBad =
      (RequestBuilder.mk (.ok reqNew)).json payloadBad :=
  pretty_json_failure_fallback _ payloadBad "key must be a string" rfl

/-- C3 as stated: the operation leaves the builder with a request carrying
`Content-Type: application/json`. -/
def SetsJsonContentType (b : RequestBuilder) : Prop :=
  ∃ req, b.request = .ok req ∧ (CONTENT_TYPE, "application/json") ∈ req.headers

/-- C3, counterexample: at a fresh builder and a payload whose serialization
fails, the returned builder carries no `Content-Type: application/json`
header, so the header is not set unconditionally for every payload. -/
theorem pretty_json_content_type_cex :
    ¬ SetsJsonContentType ((RequestBuilder.mk (.ok reqNew)).pretty_json payloadBad) := by
  rintro ⟨req, h, -⟩
  simp [RequestBuilder.pretty_json, RequestBuilder.json, to_vec, to_vec_pretty,
    payloadBad, Except.map] at h

/-- C3, amended: `pretty_json` delegates header handling to the builder's
default JSON-attachment method, so the header state of the result always
equals that of the compact path; and when the builder holds a valid request,
serialization succeeds and no `Content-Type` header was previously set, the
result carries `Content-Type: application/json`. -/
theorem pretty_json_content_type (b : RequestBuilder) (p : Payload) :
    (b.pretty_json p).headersOf = (b.json p).headersOf ∧
    (∀ req j, b.request = .ok req → p.serialize = .ok j →
      req.hasHeader CONTENT_TYPE = false →
      ∃ req', (b.pretty_json p).request = .ok req' ∧
        (CONTENT_TYPE, "application/json") ∈ req'.headers) := by
  constructor
  · rcases hb : b.request with e | req
    · simp [RequestBuilder.pretty_json, RequestBuilder.json, RequestBuilder.body,
        RequestBuilder.headersOf, hb]
      rcases hp : p.serialize with e' | j <;>
        simp [to_vec, to_vec_pretty, hp, Except.map]
    · rcases hp : p.serialize with e' | j <;>
        by_cases hh : req.hasHeader CONTENT_TYPE <;>
        simp [RequestBuilder.pretty_json, RequestBuilder.json, RequestBuilder.body,
          RequestBuilder.headersOf, hb, to_vec, to_vec_pretty, hp, Except.map, hh]
  · intro req j hb hp hph
    simp [RequestBuilder.pretty_json, RequestBuilder.json, RequestBuilder.body,
      hb, to_vec, to_vec_pretty, hp, Except.map, hph]

/-- Witness for C3 (amended) at the test payload on a fresh builder. -/
theorem pretty_json_content_type_witness :
    ((RequestBuilder.mk (.ok reqNew)).pretty_json payloadFoo).headersOf =
      ((RequestBuilder.mk (.ok reqNew)).json payloadFoo).headersOf ∧
    (∃ req', ((RequestBuilder.mk (.ok reqNew)).pretty_json payloadFoo).request = .ok req' ∧
      (CONTENT_TYPE, "application/json") ∈ req'.headers) :=
  ⟨(pretty_json_content_type _ payloadFoo).1,
   (pretty_json_content_type _ payloadFoo).2 reqNew jsonFoo rfl rfl rfl⟩

/-- C6: calling the operation on two fresh builders with the same payload
yields byte-identical bodies: the body of the result is the same function of
the payload regardless of the builder's request state. -/
theorem pretty_json_deterministic (req1 req2 : Request) (p : Payload) :
    ((RequestBuilder.mk (.ok req1)).pretty_json p).bodyOf =
      ((RequestBuilder.mk (.ok req2)).pretty_json p).bodyOf := by
  rcases hp : p.serialize with e | j <;>
    by_cases h1 : req1.hasHeader CONTENT_TYPE <;>
    by_cases h2 : req2.hasHeader CONTENT_TYPE <;>
    simp [RequestBuilder.pretty_json, RequestBuilder.json, RequestBuilder.body,
      RequestBuilder.bodyOf, to_vec, to_vec_pretty, hp, Except.map, h1, h2]

/-- C7: the asynchronous and the blocking `pretty_json` perform the same core
transformation: from the same request state and payload they produce the
same request state, differing only in the builder type they accept. -/
theorem pretty_json_blocking_equiv (r : Except String Request) (p : Payload) :
    ((BlockingRequestBuilder.mk r).pretty_json p).request =
      ((RequestBuilder.mk r).pretty_json p).request := by
  rcases r with e | req
  · rcases hp : p.serialize with e' | j <;>
      simp [RequestBuilder.pretty_json, RequestBuilder.json, RequestBuilder.body,
        BlockingRequestBuilder.pretty_json, BlockingRequestBuilder.json,
        BlockingRequestBuilder.body, to_vec, to_vec_pretty, hp, Except.map]
  · rcases hp : p.serialize with e' | j <;>
      by_cases hh : req.hasHeader CONTENT_TYPE <;>
      simp [RequestBuilder.pretty_json, RequestBuilder.json, RequestBuilder.body,
        BlockingRequestBuilder.pretty_json, BlockingRequestBuilder.json,
        BlockingRequestBuilder.body, to_vec, to_vec_pretty, hp, Except.map, hh]

/-- C8 as stated: on any builder holding a request, the operation returns a
builder still holding a request whose non-body, non-content-type state
(method, URL) is unchanged. -/
def OnlyBodyAndContentTypeChange (b : RequestBuilder) (p : Payload) : Prop :=
  ∀ req, b.request = .ok req → ∃ req', (b.pretty_json p).request = .ok req' ∧
    req'.method = req.method ∧ req'.url = req.url

/-- C8, counterexample: on a payload whose serialization fails, the delegated
`json` call turns the builder into an error carrier, so the returned builder
no longer holds the request (its method and URL are gone) and the claim that
only body and content-type change fails. -/
theorem pretty_json_frame_cex :
    ¬ OnlyBodyAndContentTypeChange (RequestBuilder.mk (.ok reqNew)) payloadBad := by
  intro h
  obtain ⟨req', h1, -, -⟩ := h reqNew rfl
  simp [RequestBuilder.pretty_json, RequestBuilder.json, to_vec, to_vec_pretty,
    payloadBad, Except.map] at h1

/-- C8, amended: when the builder holds a valid request and serialization
succeeds, `pretty_json` changes only the body and (when absent) the
`Content-Type` header: method, URL and the other headers are unchanged; the
operation is a pure transformation of its inputs. -/
theorem pretty_json_frame (b : RequestBuilder) (p : Payload) (req : Request) (j : Json)
    (hb : b.request = .ok req) (hp : p.serialize = .ok j) :
    ∃ req', (b.pretty_json p).request = .ok req' ∧
      req'.method = req.method ∧ req'.url = req.url ∧
      req'.body = some (prettyVal j 0) ∧
      (req'.headers = req.headers ∨
        req'.headers = req.headers ++ [(CONTENT_TYPE, "application/json")]) := by
  by_cases hh : req.hasHeader CONTENT_TYPE <;>
    simp [RequestBuilder.pretty_json, RequestBuilder.json, RequestBuilder.body,
      to_vec, to_vec_pretty, hp, hb, Except.map, hh]

/-- Witness for C8 (amended) at the test payload on a fresh builder. -/
theorem pretty_json_frame_witness :
    ∃ req', ((RequestBuilder.mk (.ok reqNew)).pretty_json payloadFoo).request = .ok req' ∧
      req'.method = reqNew.method ∧ req'.url = reqNew.url ∧
      req'.body = some (prettyVal jsonFoo 0) ∧
      (req'.headers = reqNew.headers ∨
        req'.headers = reqNew.headers ++ [(CONTENT_TYPE, "application/json")]) :=
  pretty_json_frame _ payloadFoo reqNew jsonFoo rfl rfl

/-- C9: if the underlying compact serialization fails, `pretty_json` still
returns a builder without panicking, but that builder carries the error
recorded by the delegated `json` call and exposes no usable body. -/
theorem pretty_json_compact_failure (b : RequestBuilder) (p : Payload) (req : Request) (e : String)
    (hb : b.request = .ok req) (hp : p.serialize = .error e) :
    (b.pretty_json p).request = .error e ∧ (b.json p).request = .error e ∧
      (b.pretty_json p).bodyOf = none := by
  simp [RequestBuilder.pretty_json, RequestBuilder.json, RequestBuilder.bodyOf,
    to_vec, to_vec_pretty, hp, hb, Except.map]

/-- Witness for C9 at a payload with a failing `Serialize` implementation. -/
theorem pretty_json_compact_failure_witness :
    ((RequestBuilder.mk (.ok reqNew)).pretty_json payloadBad).request =
        .error "key must be a string" ∧
      ((RequestBuilder.mk (.ok reqNew)).json payloadBad).request =
        .error "key must be a string" ∧
      ((RequestBuilder.mk (.ok reqNew)).pretty_json payloadBad).bodyOf = none :=
  pretty_json_compact_failure _ payloadBad reqNew "key must be a string" rfl rfl

/-- C10: `pretty_json` is total for both builder types: for every builder and
payload it returns a builder, characterized exactly by the success branch
(body replaced by the pretty bytes) or the failure branch (the `json`
result returned unchanged); no input is left uncovered. -/
theorem pretty_json_total (b : RequestBuilder) (bb : BlockingRequestBuilder) (p : Payload) :
    ((∃ j, p.serialize = .ok j ∧ b.pretty_json p = (b.json p).body (prettyVal j 0)) ∨
      (∃ e, p.serialize = .error e ∧ b.pretty_json p = b.json p)) ∧
    ((∃ j, p.serialize = .ok j ∧ bb.pretty_json p = (bb.json p).body (prettyVal j 0)) ∨
      (∃ e, p.serialize = .error e ∧ bb.pretty_json p = bb.json p)) := by
  rcases hp : p.serialize with e | j
  · exact ⟨.inr ⟨e, rfl, by simp [RequestBuilder.pretty_json, to_vec_pretty, hp, Except.map]⟩,
      .inr ⟨e, rfl, by simp [BlockingRequestBuilder.pretty_json, to_vec_pretty, hp, Except.map]⟩⟩
  · exact ⟨.inl ⟨j, rfl, by simp [RequestBuilder.pretty_json, to_vec_pretty, hp, Except.map]⟩,
      .inl ⟨j, rfl, by simp [BlockingRequestBuilder.pretty_json, to_vec_pretty, hp, Except.map]⟩⟩

/-- Structural induction for `Json` with element-wise hypotheses for the two
nested list positions. -/
theorem Json.inductionOn (P : Json → Prop)
    (hnull : P .null) (hbool : ∀ b, P (.bool b)) (hnum : ∀ n, P (.num n))
    (hstr : ∀ s, P (.str s))
    (harr : ∀ xs, (∀ x, x ∈ xs → P x) → P (.arr xs))
    (hobj : ∀ kvs, (∀ kv, kv ∈ kvs → P kv.2) → P (.obj kvs)) :
    ∀ j, P j := by
  have key : ∀ n, ∀ j : Json, sizeOf j ≤ n → P j := by
    intro n
    induction n with
    | zero => intro j h; cases j <;> simp at h
    | succ n ih =>
      intro j hle
      cases j with
      | null => exact hnull
      | bool b => exact hbool b
      | num i => exact hnum i
      | str s => exact hstr s
      | arr xs =>
        refine harr xs (fun x hx => ih x ?_)
        have h1 : sizeOf x < sizeOf xs := List.sizeOf_lt_of_mem hx
        have h2 : sizeOf (Json.arr xs) = 1 + sizeOf xs := by simp
        omega
      | obj kvs =>
        refine hobj kvs (fun kv hkv => ih kv.2 ?_)
        have h1 : sizeOf kv < sizeOf kvs := List.sizeOf_lt_of_mem hkv
        have h2 : sizeOf kv.2 < sizeOf kv := by
          rcases kv with ⟨k, v⟩
          simp
        have h3 : sizeOf (Json.obj kvs) = 1 + sizeOf kvs := by simp
        omega
  exact fun j => key (sizeOf j) j (le_refl _)

/-- Decimal digit test, on the character's code point. -/
def isDigitC (c : Char) : Bool := 48 ≤ c.toNat && c.toNat ≤ 57

theorem isDigitC_digitChar : ∀ d, d < 10 → isDigitC (digitChar d) = true := by decide

theorem natCharsAux_digits : ∀ n acc, (∀ c ∈ acc, isDigitC c = true) →
    ∀ c ∈ natCharsAux n acc, isDigitC c = true := by
  intro n
  induction n using Nat.strong_induction_on with
  | _ n ih =>
    match n with
    | 0 => intro acc hacc; simpa [natCharsAux] using hacc
    | m+1 =>
      intro acc hacc
      rw [natCharsAux]
      refine ih ((m+1)/10) (Nat.div_lt_self (Nat.succ_pos m) (by decide)) _ ?_
      intro c hc
      rcases List.mem_cons.mp hc with h | h
      · subst h; exact isDigitC_digitChar _ (Nat.mod_lt _ (by decide))
      · exact hacc c h

theorem natChars_digits (n : Nat) : ∀ c ∈ natChars n, isDigitC c = true := by
  unfold natChars
  split
  · intro c hc; rcases List.mem_singleton.mp hc with rfl; decide
  · exact natCharsAux_digits n [] (by simp)

theorem newline_not_mem_intChars (i : Int) : '\n' ∉ intChars i := by
  unfold intChars
  have h : ∀ n : Nat, '\n' ∉ natChars n := by
    intro n hmem
    have := natChars_digits n _ hmem
    simp [isDigitC] at this
  split
  · intro hmem
    rcases List.mem_cons.mp hmem with h1 | h1
    · exact absurd h1 (by decide)
    · exact h _ h1
  · exact h _

theorem hexDigChar_ne_newline : ∀ k, k < 16 → hexDigChar k ≠ '\n' := by decide

theorem newline_not_mem_escapeChar (c : Char) : '\n' ∉ escapeChar c := by
  unfold escapeChar
  split_ifs with h1 h2 h3 h4 h5 h6 h7 h8
  · decide
  · decide
  · decide
  · decide
  · decide
  · decide
  · decide
  · intro hmem
    simp only [List.mem_cons, List.not_mem_nil, or_false] at hmem
    rcases hmem with h | h | h | h | h | h
    · exact absurd h (by decide)
    · exact absurd h (by decide)
    · exact absurd h (by decide)
    · exact absurd h (by decide)
    · exact hexDigChar_ne_newline _ (by omega) h.symm
    · exact hexDigChar_ne_newline _ (Nat.mod_lt _ (by decide)) h.symm
  · intro hmem
    rcases List.mem_singleton.mp hmem with rfl
    exact h5 rfl

theorem newline_not_mem_escapeStr (l : List Char) : '\n' ∉ escapeStr l := by
  induction l with
  | nil => simp [escapeStr]
  | cons c cs ih =>
    simp only [escapeStr, List.mem_append]
    rintro (h | h)
    · exact newline_not_mem_escapeChar c h
    · exact ih h

theorem newline_not_mem_renderString (s : String) : '\n' ∉ renderString s := by
  simp only [renderString, List.mem_cons, List.mem_append]
  rintro (h | h | h)
  · exact absurd h (by decide)
  · exact newline_not_mem_escapeStr _ h
  · simp at h

theorem newline_not_mem_compactItemsTail (ys : List Json)
    (h : ∀ y ∈ ys, '\n' ∉ compactVal y) : '\n' ∉ compactItemsTail ys := by
  induction ys with
  | nil => simp [compactItemsTail]
  | cons y ys ih =>
    simp only [compactItemsTail, List.mem_cons, List.mem_append]
    rintro (hc | hc | hc)
    · exact absurd hc (by decide)
    · exact h y (List.mem_cons_self y ys) hc
    · exact ih (fun z hz => h z (List.mem_cons_of_mem y hz)) hc

theorem newline_not_mem_compactMembersTail (ms : List (String × Json))
    (h : ∀ m ∈ ms, '\n' ∉ compactVal m.2) : '\n' ∉ compactMembersTail ms := by
  induction ms with
  | nil => simp [compactMembersTail]
  | cons m ms ih =>
    simp only [compactMembersTail, List.mem_cons, List.mem_append]
    rintro (hc | hc | hc | hc | hc)
    · exact absurd hc (by decide)
    · exact newline_not_mem_renderString _ hc
    · exact absurd hc (by decide)
    · exact h m (List.mem_cons_self m ms) hc
    · exact ih (fun z hz => h z (List.mem_cons_of_mem m hz)) hc

/-- The compact encoding never contains a literal line-break character: line
breaks inside strings are escaped and the compact formatter emits none. -/
theorem newline_not_mem_compact (j : Json) : '\n' ∉ compactVal j := by
  induction j using Json.inductionOn with
  | hnull => decide
  | hbool b => cases b <;> decide
  | hnum i => exact newline_not_mem_intChars i
  | hstr s => exact newline_not_mem_renderString s
  | harr xs ih =>
    match xs with
    | [] => decide
    | x :: xs =>
      simp only [compactVal, List.mem_cons, List.mem_append]
      rintro (hc | (hc | hc) | hc)
      · exact absurd hc (by decide)
      · exact ih x (List.mem_cons_self x xs) hc
      · exact newline_not_mem_compactItemsTail xs
          (fun z hz => ih z (List.mem_cons_of_mem x hz)) hc
      · simp at hc
  | hobj kvs ih =>
    match kvs with
    | [] => decide
    | kv :: kvs =>
      simp only [compactVal, List.mem_cons, List.mem_append]
      rintro (hc | hc | hc | (hc | hc) | hc)
      · exact absurd hc (by decide)
      · exact newline_not_mem_renderString _ hc
      · exact absurd hc (by decide)
      · exact ih kv (List.mem_cons_self kv kvs) hc
      · exact newline_not_mem_compactMembersTail kvs
          (fun z hz => ih z (List.mem_cons_of_mem kv hz)) hc
      · simp at hc

/-- The number of top-level fields or elements of a value. -/
def fieldCount : Json → Nat
  | .arr xs => xs.length
  | .obj kvs => kvs.length
  | _ => 0

/-- C5: for every successfully serialized value with at least two top-level
fields or elements, the pretty byte representation differs from the compact
serialization (it contains a literal line break the compact form never has),
while for the empty mapping the two serializations coincide. -/
theorem pretty_differs_from_compact :
    (∀ p j, p.serialize = .ok j → 2 ≤ fieldCount j → to_vec_pretty p ≠ to_vec p) ∧
    (∀ p, p.serialize = .ok (.obj []) → to_vec_pretty p = to_vec p) := by
  constructor
  · intro p j hp h2 heq
    rw [to_vec_pretty, to_vec, hp] at heq
    simp only [Except.map] at heq
    have hlists : prettyVal j 0 = compactVal j := by
      simpa using heq
    have hnl : '\n' ∈ prettyVal j 0 := by
      match j, h2 with
      | .arr (x :: xs), _ => simp [prettyVal]
      | .obj (kv :: kvs), _ => simp [prettyVal]
    rw [hlists] at hnl
    exact newline_not_mem_compact j hnl
  · intro p hp
    rw [to_vec_pretty, to_vec, hp]
    rfl

def payloadPair : Payload := ⟨.ok (.obj [("a", .num 1), ("b", .num 2)])⟩

def payloadEmptyObj : Payload := ⟨.ok (.obj [])⟩

/-- Witness for C5 at a two-field object and at the empty object. -/
theorem pretty_differs_from_compact_witness :
    to_vec_pretty payloadPair ≠ to_vec payloadPair ∧
    to_vec_pretty payloadEmptyObj = to_vec payloadEmptyObj :=
  ⟨pretty_differs_from_compact.1 payloadPair (.obj [("a", .num 1), ("b", .num 2)]) rfl
      (by decide),
   pretty_differs_from_compact.2 payloadEmptyObj rfl⟩

/-- JSON insignificant whitespace: space, tab, line feed, carriage return. -/
def isWs (c : Char) : Bool := c == ' ' || c == '\t' || c == '\n' || c == '\r'

/-- Skip leading insignificant whitespace. -/
def skipWs (cs : List Char) : List Char := cs.dropWhile isWs

/-- Value of one hexadecimal digit character. -/
def hexVal (c : Char) : Option Nat :=
  if 48 ≤ c.toNat ∧ c.toNat ≤ 57 then some (c.toNat - 48)
  else if 97 ≤ c.toNat ∧ c.toNat ≤ 102 then some (c.toNat - 87)
  else if 65 ≤ c.toNat ∧ c.toNat ≤ 70 then some (c.toNat - 55)
  else none

/-- Combined value of four hexadecimal digit characters. -/
def hex4 (a b c d : Char) : Option Nat :=
  match hexVal a, hexVal b, hexVal c, hexVal d with
  | some x, some y, some z, some w => some (x * 4096 + y * 256 + z * 16 + w)
  | _, _, _, _ => none

/-- Prepend a decoded character to a string scanner result. -/
def consFst (c : Char) (r : Option (List Char × List Char)) : Option (List Char × List Char) :=
  r.map fun p => (c :: p.1, p.2)

mutual

/-- Model of `serde_json`'s string scanner, after the opening quote: collect
characters until the closing quote, decoding escapes and rejecting raw
control characters. -/
def parseStringChars : List Char → Option (List Char × List Char)
  | [] => none
  | c :: rest =>
    if c = '"' then some ([], rest)
    else if c = '\\' then parseEscape rest
    else if c.toNat < 32 then none
    else consFst c (parseStringChars rest)
termination_by cs => cs.length
decreasing_by all_goals simp +arith

/-- Decode one escape sequence, after the backslash. -/
def parseEscape : List Char → Option (List Char × List Char)
  | [] => none
  | e :: rest =>
    if e = '"' then consFst '"' (parseStringChars rest)
    else if e = '\\' then consFst '\\' (parseStringChars rest)
    else if e = '/' then consFst '/' (parseStringChars rest)
    else if e = 'b' then consFst '\x08' (parseStringChars rest)
    else if e = 'f' then consFst '\x0C' (parseStringChars rest)
    else if e = 'n' then consFst '\n' (parseStringChars rest)
    else if e = 'r' then consFst '\r' (parseStringChars rest)
    else if e = 't' then consFst '\t' (parseStringChars rest)
    else if e = 'u' then parseHexEscape rest
    else none
termination_by cs => cs.length
decreasing_by all_goals simp +arith

/-- Decode a `\uXXXX` escape, after `\u`: a code unit outside the surrogate
range stands for itself, a high surrogate must be followed by an escaped low
surrogate, and a lone low surrogate is rejected. -/
def parseHexEscape : List Char → Option (List Char × List Char)
  | h1 :: h2 :: h3 :: h4 :: rest =>
    match hex4 h1 h2 h3 h4 with
    | none => none
    | some n =>
      if n < 0xD800 ∨ 0xDFFF < n then consFst (Char.ofNat n) (parseStringChars rest)
      else if n < 0xDC00 then parseLowSurrogate n rest
      else none
  | _ => none
termination_by cs => cs.length
decreasing_by all_goals simp +arith

/-- Decode the low half of a surrogate pair whose high half had value `n`. -/
def parseLowSurrogate (n : Nat) : List Char → Option (List Char × List Char)
  | '\\' :: 'u' :: g1 :: g2 :: g3 :: g4 :: rest =>
    match hex4 g1 g2 g3 g4 with
    | none => none
    | some m =>
      if 0xDC00 ≤ m ∧ m ≤ 0xDFFF then
        consFst (Char.ofNat (0x10000 + (n - 0xD800) * 1024 + (m - 0xDC00)))
          (parseStringChars rest)
      else none
  | _ => none

termination_by cs => cs.length
decreasing_by all_goals simp +arith
end

/-- Decimal value of a digit run, most significant digit first. -/
def digitsVal (ds : List Char) : Nat := ds.foldl (fun a c => a * 10 + (c.toNat - 48)) 0

/-- Model of `serde_json`'s unsigned integer scanner: a nonempty digit run
without a redundant leading zero, not followed by a fraction or exponent
marker (the integer fragment of the number grammar). -/
def parseNatNum (cs : List Char) : Option (Nat × List Char) :=
  let ds := cs.takeWhile isDigitC
  let rest := cs.dropWhile isDigitC
  if ds = [] then none
  else if 1 < ds.length ∧ ds.head? = some '0' then none
  else match rest with
    | c :: r => if c = '.' ∨ c = 'e' ∨ c = 'E' then none else some (digitsVal ds, c :: r)
    | [] => some (digitsVal ds, [])

/-- Number scanner: an optional minus sign followed by an unsigned integer. -/
def parseNumber : List Char → Option (Int × List Char)
  | [] => none
  | c :: rest =>
    if c = '-' then (parseNatNum rest).map fun p => (-(p.1 : Int), p.2)
    else (parseNatNum (c :: rest)).map fun p => ((p.1 : Int), p.2)

/-- Consume an expected literal character sequence. -/
def expect : List Char → List Char → Option (List Char)
  | [], cs => some cs
  | _ :: _, [] => none
  | e :: es, c :: cs => if c = e then expect es cs else none

mutual

/-- Model of `serde_json`'s value parser (fueled; every recursion step spends
one unit, and `from_slice` supplies enough fuel for any input it accepts). -/
def parseValue : Nat → List Char → Option (Json × List Char)
  | 0, _ => none
  | fuel+1, cs =>
    match skipWs cs with
    | [] => none
    | c :: rest =>
      if c = 'n' then (expect ['u', 'l', 'l'] rest).map fun r => (Json.null, r)
      else if c = 't' then (expect ['r', 'u', 'e'] rest).map fun r => (Json.bool true, r)
      else if c = 'f' then (expect ['a', 'l', 's', 'e'] rest).map fun r => (Json.bool false, r)
      else if c = '"' then
        (parseStringChars rest).map fun p => (Json.str (String.mk p.1), p.2)
      else if c = '[' then parseArrBody fuel (skipWs rest)
      else if c = '{' then parseObjBody fuel (skipWs rest)
      else (parseNumber (c :: rest)).map fun p => (Json.num p.1, p.2)
termination_by fuel _ => (fuel, 0)

/-- The inside of an array, after the opening bracket and leading whitespace. -/
def parseArrBody : Nat → List Char → Option (Json × List Char)
  | _, [] => none
  | fuel, c :: r =>
    if c = ']' then some (Json.arr [], r)
    else
      match parseValue fuel (c :: r) with
      | none => none
      | some (x, r1) =>
        match parseElems fuel r1 with
        | none => none
        | some (xs, r2) => some (Json.arr (x :: xs), r2)
termination_by fuel _ => (fuel, 2)

/-- The inside of an object, after the opening brace and leading whitespace. -/
def parseObjBody : Nat → List Char → Option (Json × List Char)
  | _, [] => none
  | fuel, c :: r =>
    if c = '}' then some (Json.obj [], r)
    else
      match parsePair fuel (c :: r) with
      | none => none
      | some (kv, r1) =>
        match parseMembers fuel r1 with
        | none => none
        | some (ms, r2) => some (Json.obj (kv :: ms), r2)
termination_by fuel _ => (fuel, 2)

/-- After one array element: a comma and a further element, or the closing bracket. -/
def parseElems : Nat → List Char → Option (List Json × List Char)
  | 0, _ => none
  | fuel+1, cs =>
    match skipWs cs with
    | [] => none
    | c :: r =>
      if c = ']' then some ([], r)
      else if c = ',' then
        match parseValue fuel r with
        | none => none
        | some (x, r1) =>
          match parseElems fuel r1 with
          | none => none
          | some (xs, r2) => some (x :: xs, r2)
      else none
termination_by fuel _ => (fuel, 1)

/-- One object member: a string key, a colon, a value. -/
def parsePair : Nat → List Char → Option ((String × Json) × List Char)
  | 0, _ => none
  | fuel+1, cs =>
    match skipWs cs with
    | [] => none
    | c :: r =>
      if c = '"' then
        match parseStringChars r with
        | none => none
        | some (k, r1) =>
          match skipWs r1 with
          | [] => none
          | c2 :: r2 =>
            if c2 = ':' then
              match parseValue fuel r2 with
              | none => none
              | some (v, r3) => some ((String.mk k, v), r3)
            else none
      else none
termination_by fuel _ => (fuel, 1)

/-- After one object member: a comma and a further member, or the closing brace. -/
def parseMembers : Nat → List Char → Option (List (String × Json) × List Char)
  | 0, _ => none
  | fuel+1, cs =>
    match skipWs cs with
    | [] => none
    | c :: r =>
      if c = '}' then some ([], r)
      else if c = ',' then
        match parsePair fuel r with
        | none => none
        | some (kv, r1) =>
          match parseMembers fuel r1 with
          | none => none
          | some (ms, r2) => some (kv :: ms, r2)
      else none
termination_by fuel _ => (fuel, 1)

end

mutual

/-- Fuel sufficient to parse a printed value. -/
def szV : Json → Nat
  | .null => 1
  | .bool _ => 1
  | .num _ => 1
  | .str _ => 1
  | .arr xs => 1 + szL xs
  | .obj kvs => 1 + szM kvs

/-- Fuel sufficient to parse a printed element tail. -/
def szL : List Json → Nat
  | [] => 1
  | x :: xs => 2 + szV x + szL xs

/-- Fuel sufficient to parse a printed member tail. -/
def szM : List (String × Json) → Nat
  | [] => 1
  | kv :: kvs => 2 + szV kv.2 + szM kvs

end

/-- Model of `serde_json::from_slice` on the integer fragment: parse one value,
allow trailing whitespace, reject trailing garbage. -/
def from_slice (cs : List Char) : Except String Json :=
  match parseValue (2 * cs.length + 2) cs with
  | some (j, rest) => if skipWs rest = [] then .ok j else .error "trailing characters"
  | none => .error "expected value"


theorem hexVal_hexDigChar : ∀ k, k < 16 → hexVal (hexDigChar k) = some k := by decide

theorem parseHexEscape_low (t : Nat) (ht : t < 32) (tl : List Char) :
    parseHexEscape ('0' :: '0' :: hexDigChar (t / 16) :: hexDigChar (t % 16) :: tl)
      = consFst (Char.ofNat t) (parseStringChars tl) := by
  have hq : t / 16 < 16 := by omega
  have hr : t % 16 < 16 := Nat.mod_lt _ (by decide)
  have hhex : hex4 '0' '0' (hexDigChar (t / 16)) (hexDigChar (t % 16))
      = some (t / 16 * 16 + t % 16) := by
    rw [hex4, hexVal_hexDigChar _ hq, hexVal_hexDigChar _ hr,
      show hexVal '0' = some 0 by decide]
    norm_num
  have ht16 : t / 16 * 16 + t % 16 = t := by omega
  rw [ht16] at hhex
  rw [parseHexEscape, hhex]
  simp only []
  rw [if_pos (Or.inl (by omega : t < 55296))]

theorem parse_string (s : List Char) : ∀ rest,
    parseStringChars (escapeStr s ++ '"' :: rest) = some (s, rest) := by
  induction s with
  | nil =>
    intro rest
    rw [escapeStr, List.nil_append, parseStringChars]
    simp +decide only [reduceIte]
  | cons c cs ih =>
    intro rest
    rw [escapeStr, List.append_assoc]
    by_cases h1 : c = '"'
    · subst h1
      rw [escapeChar]
      simp +decide only [reduceIte, List.cons_append, List.nil_append]
      rw [parseStringChars]
      simp +decide only [reduceIte]
      rw [parseEscape]
      simp +decide only [reduceIte]
      rw [ih rest]
      rfl
    by_cases h2 : c = '\\'
    · subst h2
      rw [escapeChar]
      simp +decide only [reduceIte, List.cons_append, List.nil_append]
      rw [parseStringChars]
      simp +decide only [reduceIte]
      rw [parseEscape]
      simp +decide only [reduceIte]
      rw [ih rest]
      rfl
    by_cases h3 : c = '\x08'
    · subst h3
      rw [escapeChar]
      simp +decide only [reduceIte, List.cons_append, List.nil_append]
      rw [parseStringChars]
      simp +decide only [reduceIte]
      rw [parseEscape]
      simp +decide only [reduceIte]
      rw [ih rest]
      rfl
    by_cases h4 : c = '\t'
    · subst h4
      rw [escapeChar]
      simp +decide only [reduceIte, List.cons_append, List.nil_append]
      rw [parseStringChars]
      simp +decide only [reduceIte]
      rw [parseEscape]
      simp +decide only [reduceIte]
      rw [ih rest]
      rfl
    by_cases h5 : c = '\n'
    · subst h5
      rw [escapeChar]
      simp +decide only [reduceIte, List.cons_append, List.nil_append]
      rw [parseStringChars]
      simp +decide only [reduceIte]
      rw [parseEscape]
      simp +decide only [reduceIte]
      rw [ih rest]
      rfl
    by_cases h6 : c = '\x0C'
    · subst h6
      rw [escapeChar]
      simp +decide only [reduceIte, List.cons_append, List.nil_append]
      rw [parseStringChars]
      simp +decide only [reduceIte]
      rw [parseEscape]
      simp +decide only [reduceIte]
      rw [ih rest]
      rfl
    by_cases h7 : c = '\r'
    · subst h7
      rw [escapeChar]
      simp +decide only [reduceIte, List.cons_append, List.nil_append]
      rw [parseStringChars]
      simp +decide only [reduceIte]
      rw [parseEscape]
      simp +decide only [reduceIte]
      rw [ih rest]
      rfl
    by_cases h8 : c.toNat < 32
    · rw [escapeChar, if_neg h1, if_neg h2, if_neg h3, if_neg h4, if_neg h5, if_neg h6,
        if_neg h7, if_pos h8]
      simp only [List.cons_append, List.nil_append]
      rw [parseStringChars]
      simp +decide only [reduceIte]
      rw [parseEscape]
      simp +decide only [reduceIte]
      rw [parseHexEscape_low c.toNat h8, ih rest, Char.ofNat_toNat]
      rfl
    · rw [escapeChar, if_neg h1, if_neg h2, if_neg h3, if_neg h4, if_neg h5, if_neg h6,
        if_neg h7, if_neg h8]
      simp only [List.cons_append, List.nil_append]
      rw [parseStringChars, if_neg h1, if_neg h2, if_neg h8, ih rest]
      rfl


theorem digitChar_toNat : ∀ d, d < 10 → (digitChar d).toNat = 48 + d := by decide

theorem natCharsAux_acc (n : Nat) : ∀ acc, natCharsAux n acc = natCharsAux n [] ++ acc := by
  induction n using Nat.strong_induction_on with
  | _ n ih =>
    match n with
    | 0 => intro acc; rw [natCharsAux, natCharsAux]; rfl
    | m+1 =>
      intro acc
      have hlt : (m+1) / 10 < m + 1 := Nat.div_lt_self (Nat.succ_pos m) (by decide)
      rw [natCharsAux, natCharsAux, ih ((m+1)/10) hlt (digitChar ((m+1) % 10) :: acc),
        ih ((m+1)/10) hlt [digitChar ((m+1) % 10)]]
      simp

theorem natChars_ne_nil (n : Nat) : natChars n ≠ [] := by
  rw [natChars]
  split
  · simp
  · rename_i hn
    match n, hn with
    | m+1, _ =>
      rw [natCharsAux, natCharsAux_acc]
      simp

theorem digitsVal_append (ds : List Char) (c : Char) :
    digitsVal (ds ++ [c]) = digitsVal ds * 10 + (c.toNat - 48) := by
  rw [digitsVal, digitsVal, List.foldl_append]
  rfl

theorem digitsVal_natCharsAux (n : Nat) (h : 0 < n) : digitsVal (natCharsAux n []) = n := by
  induction n using Nat.strong_induction_on with
  | _ n ih =>
    match n, h with
    | m+1, _ =>
      rw [natCharsAux, natCharsAux_acc]
      rcases Nat.lt_or_ge (m+1) 10 with hlt | hge
      · have hdiv : (m+1) / 10 = 0 := Nat.div_eq_of_lt hlt
        have hmod : (m+1) % 10 = m+1 := Nat.mod_eq_of_lt hlt
        rw [hdiv, hmod, natCharsAux, List.nil_append, digitsVal]
        simp [List.foldl]
        rw [digitChar_toNat _ hlt]
        omega
      · have hpos : 0 < (m+1) / 10 := Nat.div_pos hge (by decide)
        have hlt10 : (m+1) / 10 < m + 1 := Nat.div_lt_self (Nat.succ_pos m) (by decide)
        rw [digitsVal_append, ih ((m+1)/10) hlt10 hpos,
          digitChar_toNat _ (Nat.mod_lt _ (by decide))]
        omega

theorem digitsVal_natChars (n : Nat) : digitsVal (natChars n) = n := by
  rw [natChars]
  split
  · rename_i h; subst h; decide
  · rename_i h; exact digitsVal_natCharsAux n (Nat.pos_of_ne_zero h)

theorem natChars_head_ne_zero (n : Nat) (hn : n ≠ 0) :
    ∀ c t, natChars n = c :: t → c ≠ '0' := by
  rw [natChars, if_neg hn]
  induction n using Nat.strong_induction_on with
  | _ n ih =>
    match n with
    | 0 => intro c t h hc; subst hc; rw [natCharsAux] at h; exact List.noConfusion h
    | m+1 =>
      intro c t h
      rw [natCharsAux, natCharsAux_acc] at h
      rcases Nat.lt_or_ge (m+1) 10 with hlt | hge
      · have hdiv : (m+1) / 10 = 0 := Nat.div_eq_of_lt hlt
        have hmod : (m+1) % 10 = m+1 := Nat.mod_eq_of_lt hlt
        rw [hdiv, hmod, natCharsAux, List.nil_append] at h
        cases h
        have key : ∀ d, d < 10 → 0 < d → digitChar d ≠ '0' := by decide
        exact key (m+1) hlt (Nat.succ_pos m)
      · have hpos : 0 < (m+1) / 10 := Nat.div_pos hge (by decide)
        have hlt10 : (m+1) / 10 < m + 1 := Nat.div_lt_self (Nat.succ_pos m) (by decide)
        rcases hnc : natCharsAux ((m+1)/10) [] with _ | ⟨c', t'⟩
        · exact absurd (by rw [natChars, if_neg (Nat.pos_iff_ne_zero.mp hpos)]; exact hnc)
            (natChars_ne_nil ((m+1)/10))
        · rw [hnc, List.cons_append] at h
          cases h
          exact ih ((m+1)/10) hlt10 (Nat.pos_iff_ne_zero.mp hpos) _ _ hnc


/-- The characters after a printed token must not extend a number: the head of
the remainder is neither a digit nor a fraction or exponent marker. -/
def NotNumCont (rest : List Char) : Prop :=
  ∀ c, rest.head? = some c → isDigitC c = false ∧ c ≠ '.' ∧ c ≠ 'e' ∧ c ≠ 'E'

theorem notNumCont_nil : NotNumCont [] := by
  intro c hc
  simp at hc

theorem takeWhile_append_of_all (p : Char → Bool) (l r : List Char)
    (hl : ∀ c ∈ l, p c = true) (hr : ∀ c, r.head? = some c → p c = false) :
    (l ++ r).takeWhile p = l ∧ (l ++ r).dropWhile p = r := by
  induction l with
  | nil =>
    simp only [List.nil_append]
    cases r with
    | nil => exact ⟨rfl, rfl⟩
    | cons c r' =>
      rw [List.takeWhile_cons, List.dropWhile_cons, hr c rfl]
      exact ⟨rfl, rfl⟩
  | cons a l ih =>
    have ha : p a = true := hl a (List.mem_cons_self a l)
    obtain ⟨ht, hd⟩ := ih (fun c hc => hl c (List.mem_cons_of_mem a hc))
    refine ⟨?_, ?_⟩ <;>
      simp [List.takeWhile_cons, List.dropWhile_cons, ha, ht, hd]

theorem parseNatNum_natChars (n : Nat) (rest : List Char) (h : NotNumCont rest) :
    parseNatNum (natChars n ++ rest) = some (n, rest) := by
  obtain ⟨htake, hdrop⟩ := takeWhile_append_of_all isDigitC (natChars n) rest
    (natChars_digits n) (fun c hc => (h c hc).1)
  rw [parseNatNum]
  simp only [htake, hdrop]
  rw [if_neg (natChars_ne_nil n)]
  have hlz : ¬(1 < (natChars n).length ∧ (natChars n).head? = some '0') := by
    by_cases hn : n = 0
    · subst hn
      intro hx
      simp [natChars] at hx
    · rintro ⟨-, hhead⟩
      rcases hnc : natChars n with _ | ⟨c, t⟩
      · exact natChars_ne_nil n hnc
      · rw [hnc] at hhead
        simp only [List.head?_cons, Option.some.injEq] at hhead
        exact natChars_head_ne_zero n hn c t hnc hhead
  rw [if_neg hlz]
  cases hr : rest with
  | nil => rw [digitsVal_natChars]
  | cons c r =>
    have hc := h c (by rw [hr]; rfl)
    show (if c = '.' ∨ c = 'e' ∨ c = 'E' then none
      else some (digitsVal (natChars n), c :: r)) = some (n, c :: r)
    have hcond : ¬(c = '.' ∨ c = 'e' ∨ c = 'E') := by
      rintro (h1 | h1 | h1)
      · exact hc.2.1 h1
      · exact hc.2.2.1 h1
      · exact hc.2.2.2 h1
    rw [if_neg hcond, digitsVal_natChars]

theorem isDigitC_ne_minus (c : Char) (h : isDigitC c = true) : c ≠ '-' := by
  intro hc
  subst hc
  exact absurd h (by decide)

theorem parseNumber_intChars (i : Int) (rest : List Char) (h : NotNumCont rest) :
    parseNumber (intChars i ++ rest) = some (i, rest) := by
  rw [intChars]
  by_cases hneg : i < 0
  · rw [if_pos hneg, List.cons_append, parseNumber]
    simp +decide only [reduceIte]
    rw [parseNatNum_natChars i.natAbs rest h]
    have hi : -(i.natAbs : Int) = i := by omega
    show some (-(i.natAbs : Int), rest) = some (i, rest)
    rw [hi]
  · rw [if_neg hneg]
    obtain ⟨c, t, hnc⟩ : ∃ c t, natChars i.natAbs = c :: t := by
      rcases hx : natChars i.natAbs with _ | ⟨c, t⟩
      · exact absurd hx (natChars_ne_nil _)
      · exact ⟨c, t, rfl⟩
    have hdig : isDigitC c = true := natChars_digits i.natAbs c
      (by rw [hnc]; exact List.mem_cons_self c t)
    rw [hnc, List.cons_append, parseNumber, if_neg (isDigitC_ne_minus c hdig)]
    have hback : c :: (t ++ rest) = natChars i.natAbs ++ rest := by
      rw [hnc, List.cons_append]
    rw [hback, parseNatNum_natChars i.natAbs rest h]
    have hi : (i.natAbs : Int) = i := by omega
    show some ((i.natAbs : Int), rest) = some (i, rest)
    rw [hi]


theorem skipWs_cons_not (c : Char) (cs : List Char) (h : isWs c = false) :
    skipWs (c :: cs) = c :: cs := by
  simp [skipWs, List.dropWhile_cons, h]

theorem skipWs_cons_ws (c : Char) (cs : List Char) (h : isWs c = true) :
    skipWs (c :: cs) = skipWs cs := by
  simp [skipWs, List.dropWhile_cons, h]

theorem skipWs_append_of_ws (pre : List Char) (h : ∀ c ∈ pre, isWs c = true)
    (cs : List Char) : skipWs (pre ++ cs) = skipWs cs := by
  induction pre with
  | nil => rfl
  | cons a l ih =>
    rw [List.cons_append, skipWs_cons_ws _ _ (h a (List.mem_cons_self a l)),
      ih (fun c hc => h c (List.mem_cons_of_mem a hc))]

theorem ws_newline_indent (d : Nat) : ∀ c ∈ '\n' :: indentC d, isWs c = true := by
  intro c hc
  rcases List.mem_cons.mp hc with rfl | hc
  · decide
  · rw [List.eq_of_mem_replicate hc]
    decide

theorem skipWs_newline_indent (d : Nat) (cs : List Char) :
    skipWs ('\n' :: (indentC d ++ cs)) = skipWs cs := by
  have := skipWs_append_of_ws ('\n' :: indentC d) (ws_newline_indent d) cs
  rwa [List.cons_append] at this

theorem parseValue_ws (fuel : Nat) (pre cs : List Char) (h : ∀ c ∈ pre, isWs c = true) :
    parseValue fuel (pre ++ cs) = parseValue fuel cs := by
  cases fuel with
  | zero => simp only [parseValue]
  | succ f => rw [parseValue, parseValue, skipWs_append_of_ws pre h cs]

theorem parseValue_newline_indent (fuel d : Nat) (cs : List Char) :
    parseValue fuel ('\n' :: (indentC d ++ cs)) = parseValue fuel cs := by
  have := parseValue_ws fuel ('\n' :: indentC d) cs (ws_newline_indent d)
  rwa [List.cons_append] at this

theorem parseValue_space (fuel : Nat) (cs : List Char) :
    parseValue fuel (' ' :: cs) = parseValue fuel cs := by
  have := parseValue_ws fuel [' '] cs (by intro c hc; rcases List.mem_singleton.mp hc with rfl; decide)
  rwa [List.cons_append, List.nil_append] at this

/-- Characters a printed JSON value can start with. -/
def isValueStart (c : Char) : Bool :=
  c == 'n' || c == 't' || c == 'f' || c == '"' || c == '[' || c == '{' || c == '-' || isDigitC c

theorem isDigitC_facts (c : Char) (h : isDigitC c = true) :
    isWs c = false ∧ c ≠ ']' ∧ c ≠ '}' ∧ c ≠ ',' ∧ c ≠ ':' := by
  have hb : 48 ≤ c.toNat ∧ c.toNat ≤ 57 := by
    simpa [isDigitC, Bool.and_eq_true, decide_eq_true_eq] using h
  refine ⟨?_, ?_, ?_, ?_, ?_⟩
  · by_contra h'
    have hw : isWs c = true := by simpa using h'
    simp only [isWs, Bool.or_eq_true, beq_iff_eq] at hw
    rcases hw with ((rfl | rfl) | rfl) | rfl <;> exact absurd hb (by decide)
  · rintro rfl; exact absurd hb (by decide)
  · rintro rfl; exact absurd hb (by decide)
  · rintro rfl; exact absurd hb (by decide)
  · rintro rfl; exact absurd hb (by decide)

theorem valueStart_facts (c : Char) (h : isValueStart c = true) :
    isWs c = false ∧ c ≠ ']' ∧ c ≠ '}' ∧ c ≠ ',' ∧ c ≠ ':' := by
  simp only [isValueStart, Bool.or_eq_true, beq_iff_eq] at h
  rcases h with ((((((rfl | rfl) | rfl) | rfl) | rfl) | rfl) | rfl) | h
  · exact ⟨by decide, by decide, by decide, by decide, by decide⟩
  · exact ⟨by decide, by decide, by decide, by decide, by decide⟩
  · exact ⟨by decide, by decide, by decide, by decide, by decide⟩
  · exact ⟨by decide, by decide, by decide, by decide, by decide⟩
  · exact ⟨by decide, by decide, by decide, by decide, by decide⟩
  · exact ⟨by decide, by decide, by decide, by decide, by decide⟩
  · exact ⟨by decide, by decide, by decide, by decide, by decide⟩
  · exact isDigitC_facts c h

theorem prettyVal_start (j : Json) (d : Nat) :
    ∃ c t, prettyVal j d = c :: t ∧ isValueStart c = true := by
  match j with
  | .null => exact ⟨'n', _, by rw [prettyVal, nullChars], by decide⟩
  | .bool true => exact ⟨'t', _, by rw [prettyVal, trueChars], by decide⟩
  | .bool false => exact ⟨'f', _, by rw [prettyVal, falseChars], by decide⟩
  | .str s => exact ⟨'"', _, by rw [prettyVal, renderString], by decide⟩
  | .arr [] => exact ⟨'[', _, by rw [prettyVal], by decide⟩
  | .arr (x :: xs) => exact ⟨'[', _, by rw [prettyVal], by decide⟩
  | .obj [] => exact ⟨'{', _, by rw [prettyVal], by decide⟩
  | .obj (kv :: kvs) => exact ⟨'{', _, by rw [prettyVal], by decide⟩
  | .num i =>
    by_cases hneg : i < 0
    · exact ⟨'-', _, by rw [prettyVal, intChars, if_pos hneg], by decide⟩
    · obtain ⟨c, t, hnc⟩ : ∃ c t, natChars i.natAbs = c :: t := by
        rcases hx : natChars i.natAbs with _ | ⟨c, t⟩
        · exact absurd hx (natChars_ne_nil _)
        · exact ⟨c, t, rfl⟩
      have hdig : isDigitC c = true := natChars_digits i.natAbs c
        (by rw [hnc]; exact List.mem_cons_self c t)
      refine ⟨c, t, by rw [prettyVal, intChars, if_neg hneg, hnc], ?_⟩
      simp [isValueStart, hdig]


theorem szV_pos (j : Json) : 1 ≤ szV j := by
  cases j <;> rw [szV] <;> omega

theorem szL_pos (ys : List Json) : 1 ≤ szL ys := by
  cases ys with
  | nil => rw [szL]
  | cons x xs => rw [szL]; omega

theorem szM_pos (ms : List (String × Json)) : 1 ≤ szM ms := by
  cases ms with
  | nil => rw [szM]
  | cons m ms => rw [szM]; omega

/-- The roundtrip property of one value, used as the inductive hypothesis. -/
def ParsesPretty (x : Json) : Prop :=
  ∀ fuel d rest, szV x ≤ fuel → NotNumCont rest →
    parseValue fuel (prettyVal x d ++ rest) = some (x, rest)

theorem notNumCont_cons_of (c : Char) (cs : List Char)
    (h : isDigitC c = false ∧ c ≠ '.' ∧ c ≠ 'e' ∧ c ≠ 'E') : NotNumCont (c :: cs) := by
  intro c' hc'
  simp only [List.head?_cons, Option.some.injEq] at hc'
  subst hc'
  exact h

theorem notNumCont_itemsTail (ys : List Json) (d dd : Nat) (rest : List Char) :
    NotNumCont (itemsTail ys d ++ '\n' :: (indentC dd ++ ']' :: rest)) := by
  cases ys with
  | nil => rw [itemsTail, List.nil_append]; exact notNumCont_cons_of _ _ (by decide)
  | cons y ys => rw [itemsTail, List.cons_append]; exact notNumCont_cons_of _ _ (by decide)

theorem notNumCont_membersTail (ms : List (String × Json)) (d dd : Nat) (rest : List Char) :
    NotNumCont (membersTail ms d ++ '\n' :: (indentC dd ++ '}' :: rest)) := by
  cases ms with
  | nil => rw [membersTail, List.nil_append]; exact notNumCont_cons_of _ _ (by decide)
  | cons m ms => rw [membersTail, List.cons_append]; exact notNumCont_cons_of _ _ (by decide)

theorem parse_elems (ys : List Json) (hIH : ∀ y ∈ ys, ParsesPretty y) :
    ∀ fuel d dd rest, szL ys ≤ fuel → NotNumCont rest →
      parseElems fuel (itemsTail ys d ++ '\n' :: (indentC dd ++ ']' :: rest))
        = some (ys, rest) := by
  induction ys with
  | nil =>
    intro fuel d dd rest hf hr
    obtain ⟨f, rfl⟩ : ∃ f, fuel = f + 1 := ⟨fuel - 1, by rw [szL] at hf; omega⟩
    rw [itemsTail, List.nil_append, parseElems, skipWs_newline_indent,
      skipWs_cons_not _ _ (by decide)]
    simp +decide only [reduceIte]
  | cons y ys ih =>
    intro fuel d dd rest hf hr
    rw [szL] at hf
    obtain ⟨f, rfl⟩ : ∃ f, fuel = f + 1 := ⟨fuel - 1, by omega⟩
    have hfy : szV y ≤ f := by omega
    have hfys : szL ys ≤ f := by omega
    rw [itemsTail]
    simp only [List.cons_append, List.append_assoc]
    rw [parseElems, skipWs_cons_not _ _ (by decide)]
    simp +decide only [reduceIte]
    rw [parseValue_newline_indent]
    rw [hIH y (List.mem_cons_self y ys) f d _ hfy (notNumCont_itemsTail ys d dd rest)]
    simp only []
    rw [ih (fun z hz => hIH z (List.mem_cons_of_mem y hz)) f d dd rest hfys hr]



theorem parsePair_ws (fuel : Nat) (pre cs : List Char) (h : ∀ c ∈ pre, isWs c = true) :
    parsePair fuel (pre ++ cs) = parsePair fuel cs := by
  cases fuel with
  | zero => simp only [parsePair]
  | succ f => rw [parsePair, parsePair, skipWs_append_of_ws pre h cs]

theorem parsePair_newline_indent (fuel d : Nat) (cs : List Char) :
    parsePair fuel ('\n' :: (indentC d ++ cs)) = parsePair fuel cs := by
  have := parsePair_ws fuel ('\n' :: indentC d) cs (ws_newline_indent d)
  rwa [List.cons_append] at this

theorem parse_pair_pretty (k : String) (v : Json) (hv : ParsesPretty v) :
    ∀ fuel d rest, 1 + szV v ≤ fuel → NotNumCont rest →
      parsePair fuel (renderString k ++ ':' :: ' ' :: (prettyVal v d ++ rest))
        = some ((k, v), rest) := by
  intro fuel d rest hf hr
  obtain ⟨f, rfl⟩ : ∃ f, fuel = f + 1 := ⟨fuel - 1, by omega⟩
  have hfv : szV v ≤ f := by omega
  rw [renderString]
  simp only [List.cons_append, List.append_assoc, List.singleton_append]
  rw [parsePair, skipWs_cons_not _ _ (by decide)]
  simp +decide only [reduceIte]
  rw [parse_string]
  simp only [List.nil_append]
  rw [skipWs_cons_not _ _ (by decide)]
  simp +decide only [reduceIte]
  rw [parseValue_space, hv f d rest hfv hr]

theorem parse_members (ms : List (String × Json)) (hIH : ∀ m ∈ ms, ParsesPretty m.2) :
    ∀ fuel d dd rest, szM ms ≤ fuel → NotNumCont rest →
      parseMembers fuel (membersTail ms d ++ '\n' :: (indentC dd ++ '}' :: rest))
        = some (ms, rest) := by
  induction ms with
  | nil =>
    intro fuel d dd rest hf hr
    obtain ⟨f, rfl⟩ : ∃ f, fuel = f + 1 := ⟨fuel - 1, by rw [szM] at hf; omega⟩
    rw [membersTail, List.nil_append, parseMembers, skipWs_newline_indent,
      skipWs_cons_not _ _ (by decide)]
    simp +decide only [reduceIte]
  | cons m ms ih =>
    rcases m with ⟨k, v⟩
    intro fuel d dd rest hf hr
    rw [szM] at hf
    obtain ⟨f, rfl⟩ : ∃ f, fuel = f + 1 := ⟨fuel - 1, by omega⟩
    have hfv : 1 + szV v ≤ f := by
      have := szM_pos ms
      simp only at hf
      omega
    have hfms : szM ms ≤ f := by simp only at hf; omega
    rw [membersTail]
    simp only [List.cons_append, List.append_assoc]
    rw [parseMembers, skipWs_cons_not _ _ (by decide)]
    simp +decide only [reduceIte]
    rw [parsePair_newline_indent]
    rw [parse_pair_pretty k v (hIH (k, v) (List.mem_cons_self _ _)) f d _ hfv
      (notNumCont_membersTail ms d dd rest)]
    simp only []
    rw [ih (fun z hz => hIH z (List.mem_cons_of_mem _ hz)) f d dd rest hfms hr]


theorem numStart_facts (c : Char) (h : c = '-' ∨ isDigitC c = true) :
    isWs c = false ∧ c ≠ 'n' ∧ c ≠ 't' ∧ c ≠ 'f' ∧ c ≠ '"' ∧ c ≠ '[' ∧ c ≠ '{' := by
  rcases h with rfl | h
  · exact ⟨by decide, by decide, by decide, by decide, by decide, by decide, by decide⟩
  · have hb : 48 ≤ c.toNat ∧ c.toNat ≤ 57 := by
      simpa [isDigitC, Bool.and_eq_true, decide_eq_true_eq] using h
    refine ⟨?_, ?_, ?_, ?_, ?_, ?_, ?_⟩
    · by_contra h'
      have hw : isWs c = true := by simpa using h'
      simp only [isWs, Bool.or_eq_true, beq_iff_eq] at hw
      rcases hw with ((rfl | rfl) | rfl) | rfl <;> exact absurd hb (by decide)
    · rintro rfl; exact absurd hb (by decide)
    · rintro rfl; exact absurd hb (by decide)
    · rintro rfl; exact absurd hb (by decide)
    · rintro rfl; exact absurd hb (by decide)
    · rintro rfl; exact absurd hb (by decide)
    · rintro rfl; exact absurd hb (by decide)

theorem skipWs_renderString_append (k : String) (z : List Char) :
    skipWs (renderString k ++ z) = renderString k ++ z := by
  rw [renderString, List.cons_append, skipWs_cons_not _ _ (by decide)]

theorem parseObjBody_member (f : Nat) (k : String) (z : List Char) :
    parseObjBody f (renderString k ++ z)
      = match parsePair f (renderString k ++ z) with
        | none => none
        | some (kv, r1) =>
          match parseMembers f r1 with
          | none => none
          | some (ms, r2) => some (Json.obj (kv :: ms), r2) := by
  rw [renderString, List.cons_append, parseObjBody]
  simp +decide only [reduceIte]

theorem parse_pretty_val : ∀ j, ParsesPretty j := by
  intro j
  induction j using Json.inductionOn with
  | hnull =>
    intro fuel d rest hf hr
    obtain ⟨f, rfl⟩ : ∃ f, fuel = f + 1 := ⟨fuel - 1, by rw [szV] at hf; omega⟩
    rw [prettyVal]
    simp only [nullChars, List.cons_append, List.nil_append]
    rw [parseValue, skipWs_cons_not _ _ (by decide)]
    simp +decide only [reduceIte, expect]
    rfl
  | hbool b =>
    intro fuel d rest hf hr
    obtain ⟨f, rfl⟩ : ∃ f, fuel = f + 1 := ⟨fuel - 1, by rw [szV] at hf; omega⟩
    cases b
    · rw [prettyVal]
      simp only [falseChars, List.cons_append, List.nil_append]
      rw [parseValue, skipWs_cons_not _ _ (by decide)]
      simp +decide only [reduceIte, expect]
      try rfl
    · rw [prettyVal]
      simp only [trueChars, List.cons_append, List.nil_append]
      rw [parseValue, skipWs_cons_not _ _ (by decide)]
      simp +decide only [reduceIte, expect]
      try rfl
  | hnum i =>
    intro fuel d rest hf hr
    obtain ⟨f, rfl⟩ : ∃ f, fuel = f + 1 := ⟨fuel - 1, by rw [szV] at hf; omega⟩
    rw [prettyVal]
    obtain ⟨c, t, hct, hstart⟩ : ∃ c t, intChars i = c :: t ∧ (c = '-' ∨ isDigitC c = true) := by
      rw [intChars]
      by_cases hneg : i < 0
      · rw [if_pos hneg]
        exact ⟨'-', _, rfl, Or.inl rfl⟩
      · rw [if_neg hneg]
        obtain ⟨c, t, hnc⟩ : ∃ c t, natChars i.natAbs = c :: t := by
          rcases hx : natChars i.natAbs with _ | ⟨c, t⟩
          · exact absurd hx (natChars_ne_nil _)
          · exact ⟨c, t, rfl⟩
        exact ⟨c, t, hnc, Or.inr (natChars_digits _ c
          (by rw [hnc]; exact List.mem_cons_self c t))⟩
    obtain ⟨hws, hcn, hctt, hcf, hcq, hcbk, hcbc⟩ := numStart_facts c hstart
    rw [hct, List.cons_append, parseValue, skipWs_cons_not _ _ hws]
    simp only [if_neg hcn, if_neg hctt, if_neg hcf, if_neg hcq, if_neg hcbk, if_neg hcbc]
    have hback : c :: (t ++ rest) = intChars i ++ rest := by rw [hct, List.cons_append]
    rw [hback, parseNumber_intChars i rest hr]
    rfl
  | hstr s =>
    intro fuel d rest hf hr
    obtain ⟨f, rfl⟩ : ∃ f, fuel = f + 1 := ⟨fuel - 1, by rw [szV] at hf; omega⟩
    rw [prettyVal, renderString]
    simp only [List.cons_append, List.append_assoc, List.singleton_append]
    rw [parseValue, skipWs_cons_not _ _ (by decide)]
    simp +decide only [reduceIte]
    rw [parse_string]
    rfl
  | harr xs ihs =>
    cases xs with
    | nil =>
      intro fuel d rest hf hr
      obtain ⟨f, rfl⟩ : ∃ f, fuel = f + 1 := ⟨fuel - 1, by rw [szV] at hf; omega⟩
      rw [prettyVal]
      simp only [List.cons_append, List.nil_append]
      rw [parseValue, skipWs_cons_not _ _ (by decide)]
      simp +decide only [reduceIte]
      rw [skipWs_cons_not _ _ (by decide), parseArrBody]
      simp +decide only [reduceIte]
    | cons x xs =>
      intro fuel d rest hf hr
      rw [szV, szL] at hf
      obtain ⟨f, rfl⟩ : ∃ f, fuel = f + 1 := ⟨fuel - 1, by omega⟩
      have hfx : szV x ≤ f := by omega
      have hfxs : szL xs ≤ f := by
        have := szV_pos x
        omega
      rw [prettyVal]
      simp only [List.cons_append, List.append_assoc, List.singleton_append, List.nil_append]
      rw [parseValue, skipWs_cons_not _ _ (by decide)]
      simp +decide only [reduceIte]
      rw [skipWs_newline_indent]
      obtain ⟨c0, t0, hx0, hvs⟩ := prettyVal_start x (d+1)
      obtain ⟨hws0, hrb0, hcb0, hcm0, hcl0⟩ := valueStart_facts c0 hvs
      rw [hx0, List.cons_append, skipWs_cons_not _ _ hws0, parseArrBody]
      simp only [if_neg hrb0]
      have hback : c0 :: (t0 ++ (itemsTail xs (d+1) ++ '\n' :: (indentC d ++ ']' :: rest)))
          = prettyVal x (d+1) ++ (itemsTail xs (d+1) ++ '\n' :: (indentC d ++ ']' :: rest)) := by
        rw [hx0, List.cons_append]
      rw [hback, ihs x (List.mem_cons_self x xs) f (d+1) _ hfx
        (notNumCont_itemsTail xs (d+1) d rest)]
      simp only []
      rw [parse_elems xs (fun z hz => ihs z (List.mem_cons_of_mem x hz)) f (d+1) d rest hfxs hr]
  | hobj kvs ihs =>
    cases kvs with
    | nil =>
      intro fuel d rest hf hr
      obtain ⟨f, rfl⟩ : ∃ f, fuel = f + 1 := ⟨fuel - 1, by rw [szV] at hf; omega⟩
      rw [prettyVal]
      simp only [List.cons_append, List.nil_append]
      rw [parseValue, skipWs_cons_not _ _ (by decide)]
      simp +decide only [reduceIte]
      rw [skipWs_cons_not _ _ (by decide), parseObjBody]
      simp +decide only [reduceIte]
    | cons kv kvs =>
      intro fuel d rest hf hr
      rw [szV, szM] at hf
      obtain ⟨f, rfl⟩ : ∃ f, fuel = f + 1 := ⟨fuel - 1, by omega⟩
      have hfv : 1 + szV kv.2 ≤ f := by
        have := szM_pos kvs
        omega
      have hfms : szM kvs ≤ f := by
        have := szV_pos kv.2
        omega
      rw [prettyVal]
      simp only [List.cons_append, List.append_assoc, List.singleton_append, List.nil_append]
      rw [parseValue, skipWs_cons_not _ _ (by decide)]
      simp +decide only [reduceIte]
      rw [skipWs_newline_indent, skipWs_renderString_append, parseObjBody_member]
      rw [parse_pair_pretty kv.1 kv.2 (ihs kv (List.mem_cons_self kv kvs)) f (d+1) _ hfv
        (notNumCont_membersTail kvs (d+1) d rest)]
      simp only []
      rw [parse_members kvs (fun z hz => ihs z (List.mem_cons_of_mem kv hz)) f (d+1) d rest
        hfms hr]


theorem intChars_ne_nil (i : Int) : intChars i ≠ [] := by
  rw [intChars]
  split
  · simp
  · exact natChars_ne_nil _

theorem szL_le (ys : List Json) (h : ∀ y ∈ ys, ∀ d, szV y ≤ 2 * (prettyVal y d).length) :
    ∀ d, szL ys ≤ 2 * (itemsTail ys d).length + 3 := by
  induction ys with
  | nil => intro d; rw [szL, itemsTail]; simp
  | cons y ys ih =>
    intro d
    have hy := h y (List.mem_cons_self y ys) d
    have hys := ih (fun z hz => h z (List.mem_cons_of_mem y hz)) d
    rw [szL, itemsTail]
    simp only [List.length_cons, List.length_append]
    omega

theorem szM_le (ms : List (String × Json)) (h : ∀ m ∈ ms, ∀ d, szV m.2 ≤ 2 * (prettyVal m.2 d).length) :
    ∀ d, szM ms ≤ 2 * (membersTail ms d).length + 3 := by
  induction ms with
  | nil => intro d; rw [szM, membersTail]; simp
  | cons m ms ih =>
    intro d
    have hm := h m (List.mem_cons_self m ms) d
    have hms := ih (fun z hz => h z (List.mem_cons_of_mem m hz)) d
    rw [szM, membersTail]
    simp only [List.length_cons, List.length_append]
    omega

theorem szV_le (j : Json) : ∀ d, szV j ≤ 2 * (prettyVal j d).length := by
  induction j using Json.inductionOn with
  | hnull => intro d; rw [szV, prettyVal]; simp [nullChars]
  | hbool b =>
    intro d
    cases b
    · rw [szV, prettyVal]; simp [falseChars]
    · rw [szV, prettyVal]; simp [trueChars]
  | hnum i =>
    intro d
    rw [szV, prettyVal]
    have h1 : intChars i ≠ [] := intChars_ne_nil i
    have h2 : 0 < (intChars i).length := List.length_pos.mpr h1
    omega
  | hstr s =>
    intro d
    rw [szV, prettyVal, renderString]
    simp only [List.length_cons, List.length_append]
    omega
  | harr xs ihs =>
    cases xs with
    | nil => intro d; rw [szV, szL, prettyVal]; simp
    | cons x xs =>
      intro d
      have hx := ihs x (List.mem_cons_self x xs) (d+1)
      have hxs := szL_le xs (fun z hz d' => ihs z (List.mem_cons_of_mem x hz) d') (d+1)
      rw [szV, szL, prettyVal]
      simp only [List.length_cons, List.length_append]
      omega
  | hobj kvs ihs =>
    cases kvs with
    | nil => intro d; rw [szV, szM, prettyVal]; simp
    | cons kv kvs =>
      intro d
      have hv := ihs kv (List.mem_cons_self kv kvs) (d+1)
      have hms := szM_le kvs (fun z hz d' => ihs z (List.mem_cons_of_mem kv hz) d') (d+1)
      rw [szV, szM, prettyVal]
      simp only [List.length_cons, List.length_append]
      omega

theorem from_slice_pretty (j : Json) : from_slice (prettyVal j 0) = .ok j := by
  rw [from_slice]
  have hsz : szV j ≤ 2 * (prettyVal j 0).length + 2 := by
    have := szV_le j 0
    omega
  have hp := parse_pretty_val j (2 * (prettyVal j 0).length + 2) 0 [] hsz notNumCont_nil
  rw [List.append_nil] at hp
  rw [hp]
  simp [skipWs]


/-- C4: for every serializable value whose pretty serialization succeeds,
decoding the resulting body through the serializer's parser yields exactly
the value that was serialized. -/
theorem pretty_roundtrip (p : Payload) (j : Json) (body : List Char)
    (hp : p.serialize = .ok j) (hbody : to_vec_pretty p = .ok body) :
    from_slice body = .ok j := by
  rw [to_vec_pretty, hp] at hbody
  simp only [Except.map] at hbody
  obtain rfl : prettyVal j 0 = body := by
    cases hbody
    rfl
  exact from_slice_pretty j

/-- Witness for C4 at the crate's own test payload. -/
theorem pretty_roundtrip_witness :
    payloadFoo.serialize = .ok jsonFoo ∧
      to_vec_pretty payloadFoo = .ok (prettyVal jsonFoo 0) ∧
      from_slice (prettyVal jsonFoo 0) = .ok jsonFoo :=
  ⟨rfl, rfl, pretty_roundtrip payloadFoo jsonFoo (prettyVal jsonFoo 0) rfl rfl⟩
